import Mathlib

/-!
Shallow embedding of the tree-rs repository (src/src/btree/mod.rs and
src/src/freelist/mod.rs) and proofs about it.

Modelling conventions:
* Rust `Key = [u128; 1]` is modelled as `Nat` (keys are only compared, never
  computed with, and array comparison of a one-element array is comparison of
  the element).  Rust `Value = u8` is modelled as `Nat` (values are only
  stored and read back).
* A Rust panic (index out of bounds, `ArrayVec` capacity overflow,
  `unwrap` failure, the explicit `panic!` in `Freelist::push`) is modelled by
  the result `RRes.err`.
* The recursive tree operations take a fuel parameter so that they are
  structurally recursive and kernel-reducible; `RRes.out` reports fuel
  exhaustion and is distinct from a panic.
* `ArrayVec` capacities are computed from `NODE_SIZE = 64 * 4` exactly as in
  the source, with `size_of(Key) = 16`, `size_of(Value) = 1` and
  `size_of(NodePtr) = 16` (an `Rc<RefCell<dyn Node>>` fat pointer on a 64-bit
  target).
-/

namespace TreeRs

/-- Result of a Rust computation: a value, a panic, or out of model fuel. -/
inductive RRes (α : Type u) where
  | ok : α → RRes α
  | err : RRes α
  | out : RRes α
deriving DecidableEq, Repr

def RRes.bind : RRes α → (α → RRes β) → RRes β
  | .ok a, f => f a
  | .err, _ => .err
  | .out, _ => .out

instance : Monad RRes where
  pure := RRes.ok
  bind := RRes.bind

/-- Node-size budget from the source: `NODE_SIZE = 64 * 4`. -/
def NODE_SIZE : Nat := 64 * 4

/-- `LEAF_ITEMS_SIZE = (NODE_SIZE - 32) / (size_of(Key) + size_of(Value))` = 13. -/
def LEAF_ITEMS_SIZE : Nat := (NODE_SIZE - 32) / (16 + 1)

/-- `INTERNAL_ITEMS_SIZE = (NODE_SIZE - 32) / (size_of(NodePtr) + size_of(Key))` = 7. -/
def INTERNAL_ITEMS_SIZE : Nat := (NODE_SIZE - 32) / (16 + 16)

/-- `PIVOTS_SIZE = INTERNAL_ITEMS_SIZE - 1` = 6. -/
def PIVOTS_SIZE : Nat := INTERNAL_ITEMS_SIZE - 1

/-- `CHILDREN_SIZE = INTERNAL_ITEMS_SIZE` = 7. -/
def CHILDREN_SIZE : Nat := INTERNAL_ITEMS_SIZE

/-- Insertion into a list at an index (semantics of `Vec`/`ArrayVec` insert,
assuming the index is in bounds; bounds and capacity are checked by
`avInsertAt`). -/
def linsert : List α → Nat → α → List α
  | l, 0, x => x :: l
  | [], _ + 1, x => [x]
  | a :: l, n + 1, x => a :: linsert l n x

/-- `ArrayVec::insert(idx, x)` with capacity `cap`: panics if the vector is
full or the index is out of bounds. -/
def avInsertAt (cap : Nat) (l : List α) (i : Nat) (x : α) : RRes (List α) :=
  if l.length < cap ∧ i ≤ l.length then .ok (linsert l i x) else .err

/-- `ArrayVec::remove(idx)`: panics if the index is out of bounds. -/
def avRemove (l : List α) (i : Nat) : RRes (List α) :=
  if i < l.length then .ok (l.eraseIdx i) else .err

/-- The loop of Rust `slice::binary_search` (the standard-library algorithm,
which the source calls on `pivots` and `keys`), with fuel for structural
recursion; `inl` is `Ok`, `inr` is `Err`.  Fuel `l.length + 1` always
suffices because `right - left` shrinks at every step. -/
def bsGo : Nat → List Nat → Nat → Nat → Nat → Nat ⊕ Nat
  | 0, _, _, left, _ => .inr left
  | f + 1, l, key, left, right =>
    if left < right then
      let mid := left + (right - left) / 2
      let x := l.getD mid 0
      if x < key then bsGo f l key (mid + 1) right
      else if key < x then bsGo f l key left mid
      else .inl mid
    else .inr left

/-- Rust `slice::binary_search(&key)`. -/
def bsearch (l : List Nat) (key : Nat) : Nat ⊕ Nat :=
  bsGo (l.length + 1) l key 0 l.length

/-- The node type: `LeafNode { keys, values }` or
`InternalNode { pivots, children }`. -/
inductive Node where
  | leaf (keys : List Nat) (values : List Nat)
  | internal (pivots : List Nat) (children : List Node)
deriving Repr

mutual

/-- Boolean equality on nodes (structural, kernel-reducible). -/
def Node.beq : Node → Node → Bool
  | .leaf k v, .leaf k2 v2 => k == k2 && v == v2
  | .internal p c, .internal p2 c2 => p == p2 && beqList c c2
  | _, _ => false

/-- Boolean equality on lists of nodes. -/
def beqList : List Node → List Node → Bool
  | [], [] => true
  | x :: xs, y :: ys => Node.beq x y && beqList xs ys
  | _, _ => false

end

mutual

/-- `Node::total_len` — leaf: number of keys; internal: sum of the children's
`total_len`, recomputed recursively. -/
def Node.total_len : Node → Nat
  | .leaf keys _ => keys.length
  | .internal _ children => totalLenList children

/-- Sum of `total_len` over a list of children (left to right, as the
source's iterator sum). -/
def totalLenList : List Node → Nat
  | [] => 0
  | c :: cs => c.total_len + totalLenList cs

end

mutual

/-- Number of occurrences of key `k` among the leaf entries of a node (a
specification-side measure used in proofs; not part of the source API). -/
def Node.countK (k : Nat) : Node → Nat
  | .leaf keys _ => keys.count k
  | .internal _ children => countKList k children

/-- `countK` summed over a list of children. -/
def countKList (k : Nat) : List Node → Nat
  | [] => 0
  | c :: cs => c.countK k + countKList k cs

end


/-- `Node::is_full` — `ArrayVec::is_full`, i.e. length equals capacity on the
primary sequence. -/
def Node.is_full : Node → Bool
  | .leaf keys _ => keys.length == LEAF_ITEMS_SIZE
  | .internal pivots _ => pivots.length == PIVOTS_SIZE

/-- `Node::is_empty` on the primary sequence. -/
def Node.is_empty : Node → Bool
  | .leaf keys _ => keys.isEmpty
  | .internal pivots _ => pivots.isEmpty

/-- `Node::len` on the primary sequence. -/
def Node.len : Node → Nat
  | .leaf keys _ => keys.length
  | .internal pivots _ => pivots.length

/-- `Node::get_first_key` — `keys[0]` / `pivots[0]`; panics on an empty node
(modelled by `none`). -/
def Node.get_first_key : Node → Option Nat
  | .leaf keys _ => keys[0]?
  | .internal pivots _ => pivots[0]?

/-- `Node::pop_first_child` — the leaf returns `None`; the internal node does
`self.children.pop()`, which removes and returns the last child.  The result
pairs the popped child with the mutated node. -/
def Node.pop_first_child : Node → Option Node × Node
  | .leaf keys values => (none, .leaf keys values)
  | .internal pivots children =>
    match children.getLast? with
    | some last => (some last, .internal pivots children.dropLast)
    | none => (none, .internal pivots children)

/-- `Node::split`.  Leaf: `mid = len / 2`, right node gets `keys[mid..]` /
`values[mid..]` (via `new_from`, whose `try_extend_from_slice(..).unwrap()`
panics past capacity), pivot is `keys[mid]`, the node truncates to the left
half.  Internal: `mid = pivots.len() / 2`, right node gets `pivots[mid+1..]`
and `children[mid+1..]` (slicing panics when `mid+1` exceeds the length, and
`new_from` panics past capacity), pivot is `pivots[mid]`, the node truncates
to `pivots[..mid]` and `children[..mid+1]`.  Returns
`(pivot, left half, right half)`. -/
def Node.split : Node → RRes (Nat × Node × Node)
  | .leaf keys values =>
    let mid := keys.length / 2
    if mid ≤ values.length then
      if keys.length - mid ≤ LEAF_ITEMS_SIZE ∧ values.length - mid ≤ LEAF_ITEMS_SIZE then
        match keys[mid]? with
        | some piv =>
          .ok (piv, .leaf (keys.take mid) (values.take mid),
               .leaf (keys.drop mid) (values.drop mid))
        | none => .err
      else .err
    else .err
  | .internal pivots children =>
    let mid := pivots.length / 2
    if mid + 1 ≤ pivots.length ∧ mid + 1 ≤ children.length then
      if pivots.length - (mid + 1) ≤ PIVOTS_SIZE ∧
          children.length - (mid + 1) ≤ CHILDREN_SIZE then
        match pivots[mid]? with
        | some piv =>
          .ok (piv, .internal (pivots.take mid) (children.take (mid + 1)),
               .internal (pivots.drop (mid + 1)) (children.drop (mid + 1)))
        | none => .err
      else .err
    else .err

/-- `InternalNode::try_split(idx)`: if `children[idx]` is full, split it in
place, insert the pivot at `idx` and the new right child at `idx + 1`
(each `ArrayVec::insert` may panic on capacity overflow).  Indexing
`children[idx]` itself may panic. -/
def trySplitF (pivots : List Nat) (children : List Node) (idx : Nat) :
    RRes (List Nat × List Node) :=
  match children[idx]? with
  | none => .err
  | some ch =>
    if ch.is_full then do
      let (piv, lch, rch) ← ch.split
      let c1 := children.set idx lch
      let p1 ← avInsertAt PIVOTS_SIZE pivots idx piv
      let c2 ← avInsertAt CHILDREN_SIZE c1 (idx + 1) rch
      .ok (p1, c2)
    else .ok (pivots, children)

/-- `Node::get` (fuel-indexed).  Leaf: binary-search the keys, return
`values[idx]` on a hit (panicking if `values` is shorter).  Internal: on an
exact pivot match look in the right child (`idx + 1`), otherwise descend at
the insertion point; indexing `children[idx]` may panic. -/
def Node.getF : Nat → Node → Nat → RRes (Option Nat)
  | 0, _, _ => .out
  | _ + 1, .leaf keys values, key =>
    match bsearch keys key with
    | .inl i =>
      match values[i]? with
      | some v => .ok (some v)
      | none => .err
    | .inr _ => .ok none
  | f + 1, .internal pivots children, key =>
    let idx := match bsearch pivots key with
      | .inl i => i + 1
      | .inr i => i
    match children[idx]? with
    | some c => Node.getF f c key
    | none => .err

/-- `Node::insert` (fuel-indexed).  Leaf: overwrite on an exact hit, else
insert into both sequences (capacity overflow panics).  Internal: on an exact
pivot match take that index unchanged; otherwise take the insertion point and
run `try_split` on it first; then, if `idx < pivots.len()` and
`key > pivots[idx]`, move one slot right; finally recurse into
`children[idx]`. -/
def Node.insertF : Nat → Node → Nat → Nat → RRes Node
  | 0, _, _, _ => .out
  | _ + 1, .leaf keys values, key, val =>
    (match bsearch keys key with
    | .inl i =>
      if i < values.length then .ok (.leaf keys (values.set i val)) else .err
    | .inr i => do
      let k1 ← avInsertAt LEAF_ITEMS_SIZE keys i key
      let v1 ← avInsertAt LEAF_ITEMS_SIZE values i val
      .ok (.leaf k1 v1))
  | f + 1, .internal pivots children, key, val => do
    let (p1, c1, i0) ←
      match bsearch pivots key with
      | .inl i => pure (pivots, children, i)
      | .inr i => do
        let (p1, c1) ← trySplitF pivots children i
        pure (p1, c1, i)
    let idx := if i0 < p1.length ∧ p1.getD i0 0 < key then i0 + 1 else i0
    match c1[idx]? with
    | none => .err
    | some ch => do
      let ch1 ← Node.insertF f ch key val
      .ok (.internal p1 (c1.set idx ch1))

/-- `Node::delete` (fuel-indexed), the full merge/rebalance logic of the
source.  Leaf: remove the entry on a hit.  Internal, exact pivot match at
`left_idx`: recurse into `children[left_idx + 1]`; on success, if that child
is now empty do `pivots.remove(idx)` and `children.remove(idx)` with
`idx = left_idx + 1` (as the source does), else `pivots[idx] =
children[idx].get_first_key()` (again with `idx = left_idx + 1`).  Internal,
no match at insertion point `idx`: recurse into `children[idx]`; if that
child is now empty, promote its popped last child if any, else split the
right sibling `children[idx + 1]` when it has more than one entry (updating
`pivots[idx]`, swapping, and storing the split's right half), else remove
`pivots[idx]` and `children[idx]`. -/
def Node.deleteF : Nat → Node → Nat → RRes (Bool × Node)
  | 0, _, _ => .out
  | _ + 1, .leaf keys values, key =>
    (match bsearch keys key with
    | .inl i =>
      if i < keys.length ∧ i < values.length then
        .ok (true, .leaf (keys.eraseIdx i) (values.eraseIdx i))
      else .err
    | .inr _ => .ok (false, .leaf keys values))
  | f + 1, .internal pivots children, key =>
    match bsearch pivots key with
    | .inl left_idx =>
      match children[left_idx + 1]? with
      | none => .err
      | some ch => do
        let (deleted, ch1) ← Node.deleteF f ch key
        let c1 := children.set (left_idx + 1) ch1
        if deleted then
          if ch1.is_empty then do
            let p1 ← avRemove pivots (left_idx + 1)
            let c2 ← avRemove c1 (left_idx + 1)
            .ok (true, .internal p1 c2)
          else
            match ch1.get_first_key with
            | some fk =>
              if left_idx + 1 < pivots.length then
                .ok (true, .internal (pivots.set (left_idx + 1) fk) c1)
              else .err
            | none => .err
        else .ok (false, .internal pivots c1)
    | .inr idx =>
      match children[idx]? with
      | none => .err
      | some ch => do
        let (deleted, ch1) ← Node.deleteF f ch key
        let c1 := children.set idx ch1
        if ch1.is_empty then
          match (ch1.pop_first_child).1 with
          | some gc => .ok (deleted, .internal pivots (c1.set idx gc))
          | none =>
            match c1[idx + 1]? with
            | none => .err
            | some rs =>
              if rs.len > 1 then do
                let (sk, rsL, rsR) ← rs.split
                if idx < pivots.length then
                  .ok (deleted, .internal (pivots.set idx sk)
                        ((c1.set idx rsL).set (idx + 1) rsR))
                else .err
              else do
                let p1 ← avRemove pivots idx
                let c2 ← avRemove c1 idx
                .ok (deleted, .internal p1 c2)
        else .ok (deleted, .internal pivots c1)

/-- `BTree::new()` — an empty leaf root. -/
def BTree.new : Node := .leaf [] []

/-- `BTree::insert`: if the root is full, split it and wrap both halves under
a fresh internal root (`InternalNode::new_with_key`), then delegate. -/
def BTree.insertF (f : Nat) (t : Node) (key val : Nat) : RRes Node := do
  let t1 ←
    if t.is_full then do
      let (piv, lch, rch) ← t.split
      pure (Node.internal [piv] [lch, rch])
    else pure t
  Node.insertF f t1 key val

/-- `BTree::get`: delegate to the root. -/
def BTree.getF (f : Nat) (t : Node) (key : Nat) : RRes (Option Nat) :=
  Node.getF f t key

/-- `BTree::delete`: delegate to the root; if the delete succeeded and the
root is now empty, replace the root by `root.pop_first_child()` when that
returns a child. -/
def BTree.deleteF (f : Nat) (t : Node) (key : Nat) : RRes (Bool × Node) := do
  let (result, t1) ← Node.deleteF f t key
  if result && t1.is_empty then
    match (t1.pop_first_child).1 with
    | some nr => .ok (result, nr)
    | none => .ok (result, t1)
  else .ok (result, t1)

/-- `BTree::total_len`: delegate to the root. -/
def BTree.total_len (t : Node) : Nat := t.total_len

/-- One public B-tree mutation, for describing operation sequences. -/
inductive Op where
  | ins : Nat → Nat → Op
  | del : Nat → Op
deriving DecidableEq, Repr

/-- Run a sequence of public B-tree mutations from a given root, with fuel
`f` for every recursive call. -/
def runOpsF (f : Nat) : Node → List Op → RRes Node
  | t, [] => .ok t
  | t, .ins k v :: rest => do
    let t1 ← BTree.insertF f t k v
    runOpsF f t1 rest
  | t, .del k :: rest => do
    let (_, t1) ← BTree.deleteF f t k
    runOpsF f t1 rest

/-- Inserts of keys `0, 1, …, n-1`, each with value `v`. -/
def insRange (n v : Nat) : List Op := (List.range n).map (fun i => .ins i v)

/-- Deletes of keys `0, 1, …, n-1` in ascending order. -/
def delRange (n : Nat) : List Op := (List.range n).map .del

mutual

/-- Every internal node of the tree has only non-empty children (the root
itself is allowed to be empty).  Specification-side predicate. -/
def Node.noEmptyChild : Node → Bool
  | .leaf _ _ => true
  | .internal _ children => noEmptyChildList children

/-- `noEmptyChild` over a list of children: each child is non-empty and
recursively well-formed. -/
def noEmptyChildList : List Node → Bool
  | [] => true
  | c :: cs => !c.is_empty && c.noEmptyChild && noEmptyChildList cs

end

/-- A `Freelist` slot (`Handle<T>`): a free-chain link or an occupied value. -/
inductive Handle (T : Type u) where
  | next : Nat → Handle T
  | value : T → Handle T
deriving Repr

instance [DecidableEq T] : DecidableEq (Handle T) := fun a b =>
  match a, b with
  | .next m, .next n => decidable_of_iff (m = n) (by simp)
  | .value x, .value y => decidable_of_iff (x = y) (by simp)
  | .next _, .value _ => isFalse (by intro h; cases h)
  | .value _, .next _ => isFalse (by intro h; cases h)

/-- `Freelist<T>`: backing slot sequence, head of the intrusive free chain,
and the count of occupied slots.  Rust stores chain links as `u32` and casts
indices through `usize`/`u32`; the claims never exercise integer overflow,
so indices are modelled as `Nat`. -/
structure Freelist (T : Type u) where
  list : List (Handle T)
  free_list_head : Nat
  size : Nat
deriving Repr

instance [DecidableEq T] : DecidableEq (Freelist T) := fun a b =>
  match a, b with
  | ⟨l1, h1, s1⟩, ⟨l2, h2, s2⟩ =>
    decidable_of_iff (l1 = l2 ∧ h1 = h2 ∧ s1 = s2)
      (iff_of_eq (Freelist.mk.injEq l1 h1 s1 l2 h2 s2).symm)

/-- `Freelist::new()`. -/
def Freelist.new : Freelist T := ⟨[], 0, 0⟩

/-- `Freelist::push`: if `size == list.len()` append `Value(val)` at the end
and return the new highest index; else inspect `list[free_list_head]` — a
`Next(next)` slot is overwritten with the value, the head advances to
`next`, and the consumed index is returned; a `Value` slot there hits the
`panic!("Freelist head is incorrect aborting")`; an out-of-bounds head is an
index panic. -/
def Freelist.push (s : Freelist T) (val : T) : RRes (Nat × Freelist T) :=
  if s.size = s.list.length then
    .ok (s.size, ⟨s.list ++ [.value val], s.free_list_head, s.size + 1⟩)
  else
    match s.list[s.free_list_head]? with
    | some (.next nxt) =>
      .ok (s.free_list_head,
           ⟨s.list.set s.free_list_head (.value val), nxt, s.size + 1⟩)
    | some (.value _) => .err
    | none => .err

/-- `Freelist::get(idx)`: `None` on a tombstoned slot, the value otherwise;
an out-of-bounds index is a panic. -/
def Freelist.get (s : Freelist T) (idx : Nat) : RRes (Option T) :=
  match s.list[idx]? with
  | some (.next _) => .ok none
  | some (.value v) => .ok (some v)
  | none => .err

/-- `Freelist::delete(idx)`: `None` (state untouched) on an already
tombstoned slot; otherwise the slot becomes `Next(free_list_head)`, the head
moves to `idx`, `size` decrements, and `Some(())` is returned.  Out of
bounds is a panic.  (`size - 1` is `Nat` subtraction; reachable states with
an occupied slot always have `size ≥ 1`, which the invariant proof below
establishes, so the Rust `usize` decrement never underflows.) -/
def Freelist.delete (s : Freelist T) (idx : Nat) : RRes (Option Unit × Freelist T) :=
  match s.list[idx]? with
  | some (.next _) => .ok (none, s)
  | some (.value _) =>
    .ok (some (), ⟨s.list.set idx (.next s.free_list_head), idx, s.size - 1⟩)
  | none => .err

/-- `Freelist::len()`. -/
def Freelist.len (s : Freelist T) : Nat := s.size

/-- Freelist states reachable from `new()` through `push` and `delete`
(`get` takes `&self` and cannot change the state). -/
inductive FReach {T : Type u} : Freelist T → Prop where
  | new : FReach Freelist.new
  | push {s : Freelist T} {v : T} {i : Nat} {s1 : Freelist T} :
      FReach s → Freelist.push s v = .ok (i, s1) → FReach s1
  | del {s : Freelist T} {i : Nat} {r : Option Unit} {s1 : Freelist T} :
      FReach s → Freelist.delete s i = .ok (r, s1) → FReach s1

/-- Number of occupied (`Value`) slots in a backing sequence. -/
def occCount : List (Handle T) → Nat
  | [] => 0
  | .value _ :: rest => occCount rest + 1
  | .next _ :: rest => occCount rest

/-- The indices visited by following the free chain from `h` for `k` steps;
`none` if a visited slot is out of bounds or not a `Next` link. -/
def chainIdx (l : List (Handle T)) : Nat → Nat → Option (List Nat)
  | _, 0 => some []
  | h, k + 1 =>
    match l[h]? with
    | some (.next nxt) => (chainIdx l nxt k).map (h :: ·)
    | _ => none

/-- The freelist's internal consistency invariant: `size` counts the
occupied slots, and the free chain from `free_list_head` passes through
`list.length - size` distinct tombstoned slots. -/
def Finv (s : Freelist T) : Prop :=
  s.size = occCount s.list ∧
  ∃ cl, chainIdx s.list s.free_list_head (s.list.length - s.size) = some cl ∧
    cl.Nodup

@[simp] theorem RRes.bind_ok (a : α) (f : α → RRes β) : RRes.bind (.ok a) f = f a := rfl

@[simp] theorem RRes.bind_err (f : α → RRes β) : RRes.bind .err f = .err := rfl

@[simp] theorem RRes.bind_out (f : α → RRes β) : RRes.bind .out f = .out := rfl

@[simp] theorem RRes.pure_eq (a : α) : (pure a : RRes α) = .ok a := rfl

@[simp] theorem RRes.bind_eq (x : RRes α) (f : α → RRes β) : x >>= f = RRes.bind x f := rfl

theorem Node.beq_iff : ∀ a b : Node, Node.beq a b = true ↔ a = b := by
  have main : ∀ a : Node, ∀ b : Node, Node.beq a b = true ↔ a = b := by
    intro a
    induction a using Node.total_len.induct
      (motive_2 := fun l => ∀ l2 : List Node, beqList l l2 = true ↔ l = l2) with
    | case1 keys values =>
      intro b
      cases b <;> simp [Node.beq]
    | case2 pivots children ih =>
      intro b
      cases b with
      | leaf k2 v2 => simp [Node.beq]
      | internal p2 c2 =>
        have := ih c2
        simp [Node.beq, this]
    | case3 =>
      rename_i l2
      cases l2 <;> simp [beqList]
    | case4 head tail ihHead ihTail =>
      rename_i l2
      cases l2 with
      | nil => simp [beqList]
      | cons x xs =>
        simp only [beqList, Bool.and_eq_true, ihHead, ihTail xs]
        constructor
        · rintro ⟨rfl, rfl⟩; rfl
        · rintro h; cases h; exact ⟨rfl, rfl⟩
  exact main

instance : DecidableEq Node := fun a b => decidable_of_iff _ (Node.beq_iff a b)

theorem bsGo_inl {f : Nat} {l : List Nat} {key left right i : Nat}
    (hr : right ≤ l.length) (h : bsGo f l key left right = .inl i) :
    i < l.length ∧ l.getD i 0 = key := by
  induction f generalizing left right with
  | zero => simp [bsGo] at h
  | succ f ih =>
    rw [bsGo] at h
    by_cases hlr : left < right
    · simp only [if_pos hlr] at h
      set mid := left + (right - left) / 2 with hmid
      have hmidlt : mid < right := by omega
      by_cases h1 : l.getD mid 0 < key
      · simp only [if_pos h1] at h
        exact ih hr h
      · simp only [if_neg h1] at h
        by_cases h2 : key < l.getD mid 0
        · simp only [if_pos h2] at h
          exact ih (le_trans (le_of_lt hmidlt) hr) h
        · simp only [if_neg h2] at h
          have hmi := Sum.inl.inj h
          subst hmi
          exact ⟨lt_of_lt_of_le hmidlt hr, le_antisymm (not_lt.mp h2) (not_lt.mp h1)⟩
    · simp only [if_neg hlr] at h
      cases h

theorem bsearch_inl {l : List Nat} {key i : Nat} (h : bsearch l key = .inl i) :
    i < l.length ∧ l.getD i 0 = key :=
  bsGo_inl le_rfl h

theorem bsearch_inl_mem {l : List Nat} {key i : Nat} (h : bsearch l key = .inl i) :
    key ∈ l := by
  obtain ⟨hi, hk⟩ := bsearch_inl h
  rw [List.getD_eq_getElem?_getD, List.getElem?_eq_getElem hi] at hk
  simp only [Option.getD_some] at hk
  rw [← hk]
  exact List.getElem_mem hi

theorem count_eraseIdx_of_getD {l : List Nat} {i k : Nat}
    (hi : i < l.length) (hk : l.getD i 0 = k) :
    (l.eraseIdx i).count k + 1 = l.count k := by
  have hdrop : l.drop i = l[i] :: l.drop (i + 1) := List.drop_eq_getElem_cons hi
  have hgl : l[i] = k := by
    rw [List.getD_eq_getElem?_getD, List.getElem?_eq_getElem hi] at hk
    simpa using hk
  calc (l.eraseIdx i).count k + 1
      = (l.take i ++ l.drop (i + 1)).count k + 1 := by
        rw [List.eraseIdx_eq_take_drop_succ]
    _ = ((l.take i).count k + (l.drop (i + 1)).count k) + 1 := by
        rw [List.count_append]
    _ = (l.take i).count k + (l[i] :: l.drop (i + 1)).count k := by
        rw [List.count_cons]; simp [hgl]; omega
    _ = (l.take i ++ l.drop i).count k := by rw [List.count_append, hdrop]
    _ = l.count k := by rw [List.take_append_drop]

/-- `l.set i x = l` when position `i` already holds `x`. -/
theorem set_self_of_getElem? {l : List α} {i : Nat} {x : α}
    (h : l[i]? = some x) : l.set i x = l := by
  induction l generalizing i with
  | nil => simp at h
  | cons a l ih =>
    cases i with
    | zero => simp at h; simp [List.set, h]
    | succ n =>
      simp only [List.getElem?_cons_succ] at h
      simp [List.set, ih h]

theorem countK_le_of_mem {k : Nat} {cs : List Node} {ch : Node} (h : ch ∈ cs) :
    ch.countK k ≤ countKList k cs := by
  induction cs with
  | nil => simp at h
  | cons a cs ih =>
    rcases List.mem_cons.mp h with rfl | h2
    · simp [countKList]
    · calc ch.countK k ≤ countKList k cs := ih h2
        _ ≤ countKList k (a :: cs) := by simp [countKList]

theorem countK_le_of_at {k : Nat} {cs : List Node} {i : Nat} {ch : Node}
    (h : cs[i]? = some ch) : ch.countK k ≤ countKList k cs := by
  obtain ⟨hlt, rfl⟩ := List.getElem?_eq_some.mp h
  exact countK_le_of_mem (List.getElem_mem hlt)

theorem countKList_set {k : Nat} {cs : List Node} {i : Nat} {ch x : Node}
    (h : cs[i]? = some ch) :
    countKList k (cs.set i x) + ch.countK k = countKList k cs + x.countK k := by
  induction cs generalizing i with
  | nil => simp at h
  | cons a cs ih =>
    cases i with
    | zero =>
      simp only [List.getElem?_cons_zero, Option.some.injEq] at h
      subst h
      simp [List.set, countKList]
      omega
    | succ n =>
      simp only [List.getElem?_cons_succ] at h
      simp only [List.set, countKList]
      have := ih h
      omega

theorem countKList_eraseIdx {k : Nat} {cs : List Node} {i : Nat} {ch : Node}
    (h : cs[i]? = some ch) :
    countKList k (cs.eraseIdx i) + ch.countK k = countKList k cs := by
  induction cs generalizing i with
  | nil => simp at h
  | cons a cs ih =>
    cases i with
    | zero =>
      simp only [List.getElem?_cons_zero, Option.some.injEq] at h
      subst h
      simp [List.eraseIdx, countKList]
      omega
    | succ n =>
      simp only [List.getElem?_cons_succ] at h
      simp only [List.eraseIdx, countKList]
      have := ih h
      omega

theorem countKList_append (k : Nat) (a b : List Node) :
    countKList k (a ++ b) = countKList k a + countKList k b := by
  induction a with
  | nil => simp [countKList]
  | cons x a ih => simp [countKList, ih]; omega

/-- A successful `split` redistributes the leaf entries of a node between its
two halves. -/
theorem split_countK {n : Node} {k piv : Nat} {lh rh : Node}
    (h : n.split = .ok (piv, lh, rh)) :
    lh.countK k + rh.countK k = n.countK k := by
  cases n with
  | leaf keys values =>
    rw [Node.split] at h
    split at h
    · split at h
      · split at h
        · injection h with h1
          injection h1 with h2 h3
          injection h3 with h4 h5
          subst h2; subst h4; subst h5
          simp only [Node.countK]
          rw [← List.count_append, List.take_append_drop]
        · cases h
      · cases h
    · cases h
  | internal pivots children =>
    rw [Node.split] at h
    split at h
    · split at h
      · split at h
        · injection h with h1
          injection h1 with h2 h3
          injection h3 with h4 h5
          subst h2; subst h4; subst h5
          simp only [Node.countK]
          rw [← countKList_append, List.take_append_drop]
        · cases h
      · cases h
    · cases h

/-- A popped child accounts for at most the whole node's occurrences of `k`. -/
theorem pop_countK {n gc : Node} {k : Nat}
    (h : (n.pop_first_child).1 = some gc) : gc.countK k ≤ n.countK k := by
  cases n with
  | leaf keys values => simp [Node.pop_first_child] at h
  | internal pivots children =>
    rw [Node.pop_first_child] at h
    cases hlast : children.getLast? with
    | none => rw [hlast] at h; simp at h
    | some last =>
      rw [hlast] at h
      simp only at h
      injection h with h1
      subst h1
      exact countK_le_of_mem (List.mem_of_mem_getLast? hlast)

/-- A successful delete that reports `true` strictly decreases the number of
occurrences of the deleted key among the leaves. -/
theorem deleteF_true_countK :
    ∀ (f : Nat) (t : Node) (k : Nat) (t1 : Node),
      Node.deleteF f t k = .ok (true, t1) → t1.countK k < t.countK k := by
  intro f
  induction f with
  | zero => intro t k t1 h; rw [Node.deleteF] at h; cases h
  | succ f ih =>
    intro t k t1 h
    cases t with
    | leaf keys values =>
      rw [Node.deleteF] at h
      split at h
      · rename_i i hbs
        split at h
        · rename_i hib
          injection h with h1
          injection h1 with h2 h3
          subst h3
          obtain ⟨hi, hk⟩ := bsearch_inl hbs
          simp only [Node.countK]
          have := count_eraseIdx_of_getD hi hk
          omega
        · cases h
      · cases h
    | internal pivots children =>
      rw [Node.deleteF] at h
      split at h
      -- exact pivot match branch
      · rename_i left_idx hbs
        split at h
        · cases h
        · rename_i ch hch
          simp only [RRes.bind_eq] at h
          cases hdel : Node.deleteF f ch k with
          | err => rw [hdel] at h; cases h
          | out => rw [hdel] at h; cases h
          | ok pr =>
            obtain ⟨deleted, ch1⟩ := pr
            rw [hdel] at h
            simp only [RRes.bind_ok] at h
            have hBle : ch.countK k ≤ countKList k children := countK_le_of_at hch
            have hidx : left_idx + 1 < children.length :=
              (List.getElem?_eq_some.mp hch).1
            have hset : countKList k (children.set (left_idx + 1) ch1) + ch.countK k
                = countKList k children + ch1.countK k := countKList_set hch
            cases deleted with
            | false => simp at h
            | true =>
              rw [if_pos rfl] at h
              have hihc : ch1.countK k < ch.countK k := ih ch k ch1 hdel
              by_cases hemp : ch1.is_empty = true
              · rw [if_pos hemp] at h
                simp only [avRemove, RRes.bind_eq] at h
                split at h
                · simp only [RRes.bind_ok] at h
                  split at h
                  · injection h with h1
                    injection h1 with h2 h3
                    subst h3
                    have hc1at : (children.set (left_idx + 1) ch1)[left_idx + 1]? = some ch1 :=
                      List.getElem?_set_self hidx
                    have herase := countKList_eraseIdx (k := k) hc1at
                    simp only [Node.countK]
                    omega
                  · cases h
                · cases h
              · rw [if_neg hemp] at h
                split at h
                · split at h
                  · injection h with h1
                    injection h1 with h2 h3
                    subst h3
                    simp only [Node.countK]
                    omega
                  · cases h
                · cases h
      -- no pivot match branch
      · rename_i idx hbs
        split at h
        · cases h
        · rename_i ch hch
          simp only [RRes.bind_eq] at h
          cases hdel : Node.deleteF f ch k with
          | err => rw [hdel] at h; cases h
          | out => rw [hdel] at h; cases h
          | ok pr =>
            obtain ⟨deleted, ch1⟩ := pr
            rw [hdel] at h
            simp only [RRes.bind_ok] at h
            have hBle : ch.countK k ≤ countKList k children := countK_le_of_at hch
            have hidx : idx < children.length := (List.getElem?_eq_some.mp hch).1
            have hset : countKList k (children.set idx ch1) + ch.countK k
                = countKList k children + ch1.countK k := countKList_set hch
            have hc1at : (children.set idx ch1)[idx]? = some ch1 :=
              List.getElem?_set_self hidx
            by_cases hemp : ch1.is_empty = true
            · rw [if_pos hemp] at h
              split at h
              -- promote popped grandchild
              · rename_i gc hpop
                injection h with h1
                injection h1 with h2 h3
                subst h2; subst h3
                have hihc : ch1.countK k < ch.countK k := ih ch k ch1 hdel
                have hgc : gc.countK k ≤ ch1.countK k := pop_countK hpop
                have hsetgc := countKList_set (k := k) (x := gc) hc1at
                simp only [Node.countK]
                omega
              -- no grandchild
              · split at h
                · cases h
                · rename_i rs hrs
                  split at h
                  -- right sibling splittable
                  · cases hsp : rs.split with
                    | err => rw [hsp] at h; cases h
                    | out => rw [hsp] at h; cases h
                    | ok tr =>
                      obtain ⟨sk, rsL, rsR⟩ := tr
                      rw [hsp] at h
                      simp only [RRes.bind_ok] at h
                      split at h
                      · injection h with h1
                        injection h1 with h2 h3
                        subst h2; subst h3
                        have hihc : ch1.countK k < ch.countK k := ih ch k ch1 hdel
                        have hsplit := split_countK (k := k) hsp
                        have hsetL := countKList_set (k := k) (x := rsL) hc1at
                        have hrs2 : ((children.set idx ch1).set idx rsL)[idx + 1]? = some rs := by
                          rw [List.getElem?_set_ne (by omega)]
                          exact hrs
                        have hsetR := countKList_set (k := k) (x := rsR) hrs2
                        simp only [Node.countK]
                        omega
                      · cases h
                  -- right sibling too small
                  · simp only [avRemove, RRes.bind_eq] at h
                    split at h
                    · simp only [RRes.bind_ok] at h
                      split at h
                      · injection h with h1
                        injection h1 with h2 h3
                        subst h2; subst h3
                        have hihc : ch1.countK k < ch.countK k := ih ch k ch1 hdel
                        have herase := countKList_eraseIdx (k := k) hc1at
                        simp only [Node.countK]
                        omega
                      · cases h
                    · cases h
            · rw [if_neg hemp] at h
              injection h with h1
              injection h1 with h2 h3
              subst h2; subst h3
              have hihc : ch1.countK k < ch.countK k := ih ch k ch1 hdel
              simp only [Node.countK]
              omega

/-- A key that no longer occurs among the leaves is never returned by `get`. -/
theorem getF_countK_zero :
    ∀ (g : Nat) (t : Node) (k : Nat), t.countK k = 0 →
      ∀ v, Node.getF g t k ≠ .ok (some v) := by
  intro g
  induction g with
  | zero => intro t k hc v h; rw [Node.getF] at h; cases h
  | succ g ih =>
    intro t k hc v h
    cases t with
    | leaf keys values =>
      rw [Node.getF] at h
      split at h
      · rename_i i hbs
        have hmem := bsearch_inl_mem hbs
        simp only [Node.countK] at hc
        rw [List.count_eq_zero] at hc
        exact hc hmem
      · cases h
    | internal pivots children =>
      rw [Node.getF] at h
      split at h
      · rename_i ch hch
        have hle : ch.countK k ≤ countKList k children := countK_le_of_at hch
        simp only [Node.countK] at hc
        exact ih ch k (by omega) v h
      · cases h

theorem noEmptyChildList_at {cs : List Node} {i : Nat} {ch : Node}
    (hall : noEmptyChildList cs = true) (h : cs[i]? = some ch) :
    ch.is_empty = false ∧ ch.noEmptyChild = true := by
  induction cs generalizing i with
  | nil => simp at h
  | cons a cs ih =>
    simp only [noEmptyChildList, Bool.and_eq_true, Bool.not_eq_true'] at hall
    cases i with
    | zero =>
      simp only [List.getElem?_cons_zero, Option.some.injEq] at h
      subst h
      exact ⟨hall.1.1, hall.1.2⟩
    | succ n =>
      simp only [List.getElem?_cons_succ] at h
      exact ih hall.2 h

/-- A delete that reports `false` leaves a tree without empty children
completely unchanged. -/
theorem deleteF_false_eq :
    ∀ (f : Nat) (t : Node) (k : Nat) (t1 : Node),
      t.noEmptyChild = true → Node.deleteF f t k = .ok (false, t1) → t1 = t := by
  intro f
  induction f with
  | zero => intro t k t1 _ h; rw [Node.deleteF] at h; cases h
  | succ f ih =>
    intro t k t1 hwf h
    cases t with
    | leaf keys values =>
      rw [Node.deleteF] at h
      split at h
      · split at h
        · injection h with h1; injection h1 with h2 h3; cases h2
        · cases h
      · injection h with h1
        injection h1 with h2 h3
        exact h3.symm
    | internal pivots children =>
      have hwfl : noEmptyChildList children = true := by
        simp only [Node.noEmptyChild] at hwf
        exact hwf
      rw [Node.deleteF] at h
      split at h
      -- exact pivot match branch
      · rename_i left_idx hbs
        split at h
        · cases h
        · rename_i ch hch
          simp only [RRes.bind_eq] at h
          cases hdel : Node.deleteF f ch k with
          | err => rw [hdel] at h; cases h
          | out => rw [hdel] at h; cases h
          | ok pr =>
            obtain ⟨deleted, ch1⟩ := pr
            rw [hdel] at h
            simp only [RRes.bind_ok] at h
            cases deleted with
            | true =>
              rw [if_pos rfl] at h
              by_cases hemp : ch1.is_empty = true
              · rw [if_pos hemp] at h
                simp only [avRemove, RRes.bind_eq] at h
                split at h
                · simp only [RRes.bind_ok] at h
                  split at h
                  · injection h with h1; injection h1 with h2 h3; cases h2
                  · cases h
                · cases h
              · rw [if_neg hemp] at h
                split at h
                · split at h
                  · injection h with h1; injection h1 with h2 h3; cases h2
                  · cases h
                · cases h
            | false =>
              simp only [Bool.false_eq_true, if_false] at h
              injection h with h1
              injection h1 with h2 h3
              have hch1 : ch1 = ch :=
                ih ch k ch1 (noEmptyChildList_at hwfl hch).2 hdel
              subst hch1
              rw [set_self_of_getElem? hch] at h3
              exact h3.symm
      -- no pivot match branch
      · rename_i idx hbs
        split at h
        · cases h
        · rename_i ch hch
          simp only [RRes.bind_eq] at h
          cases hdel : Node.deleteF f ch k with
          | err => rw [hdel] at h; cases h
          | out => rw [hdel] at h; cases h
          | ok pr =>
            obtain ⟨deleted, ch1⟩ := pr
            rw [hdel] at h
            simp only [RRes.bind_ok] at h
            by_cases hemp : ch1.is_empty = true
            · rw [if_pos hemp] at h
              have hdf : deleted = false → ch1 = ch := by
                intro hdf1
                subst hdf1
                exact ih ch k ch1 (noEmptyChildList_at hwfl hch).2 hdel
              split at h
              · rename_i gc hpop
                injection h with h1
                injection h1 with h2 h3
                have hch1 : ch1 = ch := hdf h2
                subst hch1
                rw [(noEmptyChildList_at hwfl hch).1] at hemp
                cases hemp
              · split at h
                · cases h
                · rename_i rs hrs
                  split at h
                  · cases hsp : rs.split with
                    | err => rw [hsp] at h; cases h
                    | out => rw [hsp] at h; cases h
                    | ok tr =>
                      obtain ⟨sk, rsL, rsR⟩ := tr
                      rw [hsp] at h
                      simp only [RRes.bind_ok] at h
                      split at h
                      · injection h with h1
                        injection h1 with h2 h3
                        have hch1 : ch1 = ch := hdf h2
                        subst hch1
                        rw [(noEmptyChildList_at hwfl hch).1] at hemp
                        cases hemp
                      · cases h
                  · simp only [avRemove, RRes.bind_eq] at h
                    split at h
                    · simp only [RRes.bind_ok] at h
                      split at h
                      · injection h with h1
                        injection h1 with h2 h3
                        have hch1 : ch1 = ch := hdf h2
                        subst hch1
                        rw [(noEmptyChildList_at hwfl hch).1] at hemp
                        cases hemp
                      · cases h
                    · cases h
            · rw [if_neg hemp] at h
              injection h with h1
              injection h1 with h2 h3
              have hch1 : ch1 = ch := by
                apply ih ch k ch1 (noEmptyChildList_at hwfl hch).2
                rw [hdel, ← h2]
              subst hch1
              rw [set_self_of_getElem? hch] at h3
              exact h3.symm

theorem occCount_le_length (l : List (Handle T)) : occCount l ≤ l.length := by
  induction l with
  | nil => simp [occCount]
  | cons a l ih => cases a <;> simp [occCount] <;> omega

theorem occCount_append_value (l : List (Handle T)) (v : T) :
    occCount (l ++ [Handle.value v]) = occCount l + 1 := by
  induction l with
  | nil => simp [occCount]
  | cons a l ih => cases a <;> simp [occCount, ih]

theorem occCount_set_value {l : List (Handle T)} {i n : Nat}
    (h : l[i]? = some (Handle.next n)) (v : T) :
    occCount (l.set i (Handle.value v)) = occCount l + 1 := by
  induction l generalizing i with
  | nil => simp at h
  | cons a l ih =>
    cases i with
    | zero =>
      simp only [List.getElem?_cons_zero, Option.some.injEq] at h
      subst h
      simp [List.set, occCount]
    | succ m =>
      simp only [List.getElem?_cons_succ] at h
      cases a <;> simp [List.set, occCount, ih h]

theorem occCount_set_next {l : List (Handle T)} {i : Nat} {v : T}
    (h : l[i]? = some (Handle.value v)) (n : Nat) :
    occCount (l.set i (Handle.next n)) + 1 = occCount l := by
  induction l generalizing i with
  | nil => simp at h
  | cons a l ih =>
    cases i with
    | zero =>
      simp only [List.getElem?_cons_zero, Option.some.injEq] at h
      subst h
      simp [List.set, occCount]
    | succ m =>
      simp only [List.getElem?_cons_succ] at h
      have hrec := ih h
      cases a <;> simp only [List.set, occCount] <;> omega

theorem occ_pos_of_value {l : List (Handle T)} {i : Nat} {v : T}
    (h : l[i]? = some (Handle.value v)) : 1 ≤ occCount l := by
  induction l generalizing i with
  | nil => simp at h
  | cons a l ih =>
    cases i with
    | zero =>
      simp only [List.getElem?_cons_zero, Option.some.injEq] at h
      subst h
      simp [occCount]
    | succ m =>
      simp only [List.getElem?_cons_succ] at h
      have hrec := ih h
      cases a <;> simp only [occCount] <;> omega

theorem occCount_eq_length_iff (l : List (Handle T)) :
    occCount l = l.length ↔ ∀ n, Handle.next n ∉ l := by
  induction l with
  | nil => simp [occCount]
  | cons a l ih =>
    cases a with
    | value v =>
      simp only [occCount, List.length_cons, Nat.add_right_cancel_iff, ih]
      constructor
      · intro hno n hmem
        rcases List.mem_cons.mp hmem with hx | hx
        · cases hx
        · exact hno n hx
      · intro hno n hmem
        exact hno n (List.mem_cons_of_mem _ hmem)
    | next m =>
      have hle := occCount_le_length l
      simp only [occCount, List.length_cons]
      constructor
      · intro hc; omega
      · intro hno
        exact absurd (List.mem_cons_self (Handle.next m) l) (hno m)

theorem chainIdx_mem_next {l : List (Handle T)} :
    ∀ {k h cl}, chainIdx l h k = some cl →
      ∀ j ∈ cl, ∃ n, l[j]? = some (Handle.next n) := by
  intro k
  induction k with
  | zero =>
    intro h cl hc j hj
    simp only [chainIdx] at hc
    cases hc
    simp at hj
  | succ m ih =>
    intro h cl hc j hj
    rw [chainIdx] at hc
    split at hc
    · rename_i nxt hget
      rw [Option.map_eq_some'] at hc
      obtain ⟨cl1, hc1, rfl⟩ := hc
      rcases List.mem_cons.mp hj with rfl | hj2
      · exact ⟨nxt, hget⟩
      · exact ih hc1 j hj2
    · cases hc

theorem chainIdx_set_preserve {l : List (Handle T)} {x : Handle T} :
    ∀ {k h cl j}, chainIdx l h k = some cl → j ∉ cl →
      chainIdx (l.set j x) h k = some cl := by
  intro k
  induction k with
  | zero =>
    intro h cl j hc _
    simp only [chainIdx] at hc ⊢
    exact hc
  | succ m ih =>
    intro h cl j hc hj
    rw [chainIdx] at hc
    split at hc
    · rename_i nxt hget
      rw [Option.map_eq_some'] at hc
      obtain ⟨cl1, hc1, rfl⟩ := hc
      have hjh : j ≠ h := fun hx => hj (hx ▸ List.mem_cons_self h cl1)
      have hj1 : j ∉ cl1 := fun hx => hj (List.mem_cons_of_mem _ hx)
      have hrec := ih hc1 hj1
      rw [chainIdx, List.getElem?_set_ne hjh, hget]
      show (chainIdx (l.set j x) nxt m).map (fun a => h :: a) = some (h :: cl1)
      rw [hrec]
      rfl
    · cases hc

/-- The freelist invariant holds in every reachable state. -/
theorem freelist_inv {T : Type u} {s : Freelist T} (hs : FReach s) : Finv s := by
  induction hs with
  | new =>
    refine ⟨rfl, [], ?_, List.nodup_nil⟩
    rfl
  | @push s v i s1 _ hpush ihv =>
    obtain ⟨hocc, cl, hchain, hnodup⟩ := ihv
    rw [Freelist.push] at hpush
    by_cases hfull : s.size = s.list.length
    · rw [if_pos hfull] at hpush
      injection hpush with h1
      injection h1 with h2 h3
      subst h3
      refine ⟨?_, [], ?_, List.nodup_nil⟩
      · show s.size + 1 = occCount (s.list ++ [Handle.value v])
        rw [occCount_append_value]
        omega
      · show chainIdx (s.list ++ [Handle.value v]) s.free_list_head
          ((s.list ++ [Handle.value v]).length - (s.size + 1)) = some []
        have hz : (s.list ++ [Handle.value v]).length - (s.size + 1) = 0 := by
          simp [List.length_append]
          omega
        rw [hz]
        rfl
    · rw [if_neg hfull] at hpush
      have hle : occCount s.list ≤ s.list.length := occCount_le_length s.list
      have hlt : s.size < s.list.length := by omega
      have hm : s.list.length - s.size = (s.list.length - s.size - 1) + 1 := by omega
      rw [hm, chainIdx] at hchain
      split at hchain
      · rename_i nxt hget
        rw [Option.map_eq_some'] at hchain
        obtain ⟨cl1, hc1, rfl⟩ := hchain
        rw [hget] at hpush
        injection hpush with h1
        injection h1 with h2 h3
        subst h3
        obtain ⟨hheadmem, hnodup1⟩ := List.nodup_cons.mp hnodup
        refine ⟨?_, cl1, ?_, hnodup1⟩
        · show s.size + 1 = occCount (s.list.set s.free_list_head (Handle.value v))
          rw [occCount_set_value hget]
          omega
        · show chainIdx (s.list.set s.free_list_head (Handle.value v)) nxt
            ((s.list.set s.free_list_head (Handle.value v)).length - (s.size + 1)) = some cl1
          have hlen : (s.list.set s.free_list_head (Handle.value v)).length - (s.size + 1)
              = s.list.length - s.size - 1 := by
            simp [List.length_set]
            omega
          rw [hlen]
          exact chainIdx_set_preserve hc1 hheadmem
      · cases hchain
  | @del s i r s1 _ hdel ihv =>
    obtain ⟨hocc, cl, hchain, hnodup⟩ := ihv
    rw [Freelist.delete] at hdel
    cases hget : s.list[i]? with
    | none => rw [hget] at hdel; cases hdel
    | some a =>
      rw [hget] at hdel
      cases a with
      | next m =>
        injection hdel with h1
        injection h1 with h2 h3
        subst h3
        exact ⟨hocc, cl, hchain, hnodup⟩
      | value v =>
        injection hdel with h1
        injection h1 with h2 h3
        subst h3
        have hpos : 1 ≤ occCount s.list := occ_pos_of_value hget
        have hle : occCount s.list ≤ s.list.length := occCount_le_length s.list
        have hilt : i < s.list.length := (List.getElem?_eq_some.mp hget).1
        have hnotmem : i ∉ cl := by
          intro hmem
          obtain ⟨n, hn⟩ := chainIdx_mem_next hchain i hmem
          rw [hget] at hn
          cases hn
        refine ⟨?_, i :: cl, ?_, List.nodup_cons.mpr ⟨hnotmem, hnodup⟩⟩
        · show s.size - 1 = occCount (s.list.set i (Handle.next s.free_list_head))
          have := occCount_set_next hget s.free_list_head
          omega
        · show chainIdx (s.list.set i (Handle.next s.free_list_head)) i
            ((s.list.set i (Handle.next s.free_list_head)).length - (s.size - 1))
            = some (i :: cl)
          have hlen : (s.list.set i (Handle.next s.free_list_head)).length - (s.size - 1)
              = (s.list.length - s.size) + 1 := by
            simp [List.length_set]
            omega
          rw [hlen, chainIdx, List.getElem?_set_self hilt]
          show (chainIdx (s.list.set i (Handle.next s.free_list_head)) s.free_list_head
              (s.list.length - s.size)).map (fun a => i :: a) = some (i :: cl)
          rw [chainIdx_set_preserve hchain hnotmem]
          rfl

/-- C7 amended (helper assembly at the `BTree` level): for a tree in which
`k` occurs at most once among the leaf keys, a delete of `k` that returns
`true` makes any later `get(k)` return no value; and on a tree whose internal
nodes have only non-empty children, a delete that returns `false` leaves the
tree unchanged. -/
theorem c7_delete_get_amended (t : Node) (k f g : Nat) (t1 : Node) :
    (Node.countK k t ≤ 1 → BTree.deleteF f t k = .ok (true, t1) →
      ∀ v, BTree.getF g t1 k ≠ .ok (some v)) ∧
    (t.noEmptyChild = true → BTree.deleteF f t k = .ok (false, t1) → t1 = t) := by
  constructor
  · intro hcount h v
    rw [BTree.deleteF] at h
    simp only [RRes.bind_eq] at h
    cases hdel : Node.deleteF f t k with
    | err => rw [hdel] at h; cases h
    | out => rw [hdel] at h; cases h
    | ok pr =>
      obtain ⟨res, tmid⟩ := pr
      rw [hdel] at h
      simp only [RRes.bind_ok] at h
      split at h
      · split at h
        · rename_i hpop
          injection h with h1
          injection h1 with h2 h3
          subst h2
          subst h3
          have hlt := deleteF_true_countK f t k tmid hdel
          have hle := pop_countK (k := k) hpop
          exact getF_countK_zero g _ k (by omega) v
        · injection h with h1
          injection h1 with h2 h3
          subst h2
          subst h3
          have hlt := deleteF_true_countK f t k tmid hdel
          exact getF_countK_zero g _ k (by omega) v
      · injection h with h1
        injection h1 with h2 h3
        subst h2
        subst h3
        have hlt := deleteF_true_countK f t k tmid hdel
        exact getF_countK_zero g _ k (by omega) v
  · intro hwf h
    rw [BTree.deleteF] at h
    simp only [RRes.bind_eq] at h
    cases hdel : Node.deleteF f t k with
    | err => rw [hdel] at h; cases h
    | out => rw [hdel] at h; cases h
    | ok pr =>
      obtain ⟨res, tmid⟩ := pr
      rw [hdel] at h
      simp only [RRes.bind_ok] at h
      split at h
      · rename_i hcond
        split at h
        · injection h with h1
          injection h1 with h2 h3
          subst h2
          simp at hcond
        · injection h with h1
          injection h1 with h2 h3
          subst h2
          simp at hcond
      · injection h with h1
        injection h1 with h2 h3
        subst h2
        subst h3
        exact deleteF_false_eq f t k tmid hwf hdel

/-- C1: the claim says `get(k)` returns the most recently inserted value for
`k`, in particular when `k` equals an internal pivot at the time of the
overwriting insert.  The code violates this: after inserting keys `0..13`
(value 1) from `BTree::new()` — which makes 6 an internal pivot — and then
inserting `(6, 42)`, `get(6)` still returns the stale value 1, because
`InternalNode::insert` routes a key equal to a pivot into the left child
while `get` reads the right child. -/
theorem c1_get_after_pivot_overwrite :
    (do
      let t ← runOpsF 50 BTree.new (insRange 14 1)
      let t1 ← BTree.insertF 50 t 6 42
      BTree.getF 50 t1 6) = RRes.ok (some 1) := by rfl

/-- C2: the claim says no documented operation sequence reaches a fatal
error path, in particular that `BTree::delete` never panics on a key equal to
the last pivot of an internal node.  The code violates this: from
`BTree::new()`, inserting keys `0..13` (making 6 the only pivot of the
internal root) and then deleting key 6 hits the out-of-bounds access
`pivots[idx]` with `idx = left_idx + 1 = 1` in `InternalNode::delete`. -/
theorem c2_delete_panics :
    (do
      let t ← runOpsF 50 BTree.new (insRange 14 0)
      BTree.deleteF 50 t 6) = (RRes.err : RRes (Bool × Node)) := by rfl

/-- C3: the claim says an insert of a key equal to `pivots[match_index]`
descends into `children[match_index + 1]`.  The code violates this: on the
internal node with pivot 6, inserting `(6, 42)` modifies `children[0]` (the
left child) and leaves `children[1]` (which holds key 6) unchanged, because
the `Ok(idx) => idx` arm of the binary-search match never adds 1 and the
later `key > pivots[idx]` adjustment is false on equality. -/
theorem c3_insert_ties_route_left :
    Node.insertF 50 (Node.internal [6]
        [Node.leaf [0, 1, 2, 3, 4, 5] [1, 1, 1, 1, 1, 1],
         Node.leaf [6, 7] [1, 1]]) 6 42
      = RRes.ok (Node.internal [6]
        [Node.leaf [0, 1, 2, 3, 4, 5, 6] [1, 1, 1, 1, 1, 1, 42],
         Node.leaf [6, 7] [1, 1]]) := by rfl

/-- C4: the claim says that on an exact pivot match at `p` the delete removes
`pivots[p]` or refreshes `pivots[p]`.  The code instead indexes `pivots` at
`idx = p + 1`: deleting key 6 from an internal node whose only pivot is 6
panics (`pivots[1]` with one pivot), and deleting key 6 from a node with
pivots `[6, 10]` refreshes `pivots[1]` from 10 to 7 — the pivot to the right
of the match — instead of `pivots[0]`. -/
theorem c4_delete_refreshes_wrong_pivot :
    Node.deleteF 50 (Node.internal [6]
        [Node.leaf [0, 1, 2, 3, 4, 5] [0, 0, 0, 0, 0, 0],
         Node.leaf [6, 7, 8, 9] [0, 0, 0, 0]]) 6 = RRes.err ∧
    Node.deleteF 50 (Node.internal [6, 10]
        [Node.leaf [0, 1, 2, 3, 4, 5] [0, 0, 0, 0, 0, 0],
         Node.leaf [6, 7, 8, 9] [0, 0, 0, 0],
         Node.leaf [10, 11, 12] [0, 0, 0]]) 6
      = RRes.ok (true, Node.internal [6, 7]
        [Node.leaf [0, 1, 2, 3, 4, 5] [0, 0, 0, 0, 0, 0],
         Node.leaf [7, 8, 9] [0, 0, 0],
         Node.leaf [10, 11, 12] [0, 0, 0]]) := ⟨rfl, rfl⟩

/-- C5 counterexample: the claim says `InternalNode::pop_first_child` returns
`Some` iff exactly one child remains.  On an internal node with two children
it returns `Some` (the last child), not `None`. -/
theorem c5_pop_counterexample :
    ((Node.internal [5] [Node.leaf [1] [2], Node.leaf [5] [3]]).pop_first_child).1
      = some (Node.leaf [5] [3]) ∧
    ((Node.internal [5] [Node.leaf [1] [2], Node.leaf [5] [3]]).pop_first_child).1
      ≠ none := by
  exact ⟨rfl, by decide⟩

/-- C5 amended: `InternalNode::pop_first_child` pops and returns the last
child whenever at least one child remains (so `Some` iff the children
sequence is non-empty, not iff it has exactly one element);
`LeafNode::pop_first_child` always returns `None`. -/
theorem c5_pop_last_child (pivots : List Nat) (children : List Node)
    (keys values : List Nat) :
    ((Node.internal pivots children).pop_first_child).1 = children.getLast? ∧
    (((Node.internal pivots children).pop_first_child).1 = none ↔ children = []) ∧
    ((Node.leaf keys values).pop_first_child).1 = none := by
  refine ⟨?_, ?_, rfl⟩
  · rw [Node.pop_first_child]
    cases h : children.getLast? <;> simp
  · rw [Node.pop_first_child]
    cases h : children.getLast? with
    | none =>
      simp only [List.getLast?_eq_none_iff] at h
      simp [h]
    | some a =>
      have : children ≠ [] := by
        intro he
        subst he
        cases h
      simp [this]

/-- C6: the claim says inserting `(k, v1)` then `(k, v2)` leaves exactly one
entry for `k`, holding `v2`.  The code violates this when `k` equals an
internal pivot: after inserting keys `0..13` (value 0) and then `(6, 1)` and
`(6, 2)`, the tree holds two entries for key 6 (`countK` is 2),
`total_len()` is 15, and `get(6)` returns the original value 0 — neither
`v1 = 1` nor `v2 = 2`. -/
theorem c6_duplicate_after_reinsert :
    (do
      let t ← runOpsF 50 BTree.new (insRange 14 0)
      let t1 ← BTree.insertF 50 t 6 1
      BTree.insertF 50 t1 6 2)
      = RRes.ok (Node.internal [6]
          [Node.leaf [0, 1, 2, 3, 4, 5, 6] [0, 0, 0, 0, 0, 0, 2],
           Node.leaf [6, 7, 8, 9, 10, 11, 12, 13] [0, 0, 0, 0, 0, 0, 0, 0]]) ∧
    Node.countK 6 (Node.internal [6]
        [Node.leaf [0, 1, 2, 3, 4, 5, 6] [0, 0, 0, 0, 0, 0, 2],
         Node.leaf [6, 7, 8, 9, 10, 11, 12, 13] [0, 0, 0, 0, 0, 0, 0, 0]]) = 2 ∧
    BTree.total_len (Node.internal [6]
        [Node.leaf [0, 1, 2, 3, 4, 5, 6] [0, 0, 0, 0, 0, 0, 2],
         Node.leaf [6, 7, 8, 9, 10, 11, 12, 13] [0, 0, 0, 0, 0, 0, 0, 0]]) = 15 ∧
    BTree.getF 50 (Node.internal [6]
        [Node.leaf [0, 1, 2, 3, 4, 5, 6] [0, 0, 0, 0, 0, 0, 2],
         Node.leaf [6, 7, 8, 9, 10, 11, 12, 13] [0, 0, 0, 0, 0, 0, 0, 0]]) 6
      = RRes.ok (some 0) := ⟨rfl, rfl, rfl, rfl⟩

/-- C7 counterexample: the claim quantifies over every tree state.  First
part: a state in which key 5 occurs twice makes `delete(5)` return `true`
while a subsequent `get(5)` still returns a value.  Second part: a state
with an empty internal child makes `delete(7)` return `false` while the tree
changes (the empty internal child is replaced by its grandchild). -/
theorem c7_counterexample :
    (BTree.deleteF 50
        (Node.internal [5, 7] [Node.leaf [1] [9], Node.leaf [5] [9], Node.leaf [5] [9]]) 5
      = RRes.ok (true, Node.internal [5] [Node.leaf [1] [9], Node.leaf [5] [9]]) ∧
     BTree.getF 50 (Node.internal [5] [Node.leaf [1] [9], Node.leaf [5] [9]]) 5
      = RRes.ok (some 9)) ∧
    (BTree.deleteF 50
        (Node.internal [10] [Node.internal [] [Node.leaf [5] [1]], Node.leaf [10] [2]]) 7
      = RRes.ok (false, Node.internal [10] [Node.leaf [5] [1], Node.leaf [10] [2]]) ∧
     Node.internal [10] [Node.leaf [5] [1], Node.leaf [10] [2]]
      ≠ Node.internal [10] [Node.internal [] [Node.leaf [5] [1]], Node.leaf [10] [2]]) := by
  exact ⟨⟨rfl, rfl⟩, ⟨rfl, by decide⟩⟩

/-- C7 witness: the amended theorem applied at the one-entry leaf
`leaf [5] [9]` with key 5 (first half) and at `leaf [4] [1]` with the
missing key 9 (second half). -/
theorem c7_witness :
    BTree.getF 5 (Node.leaf [] []) 5 ≠ RRes.ok (some 0) ∧
    Node.leaf [4] [1] = Node.leaf [4] [1] := by
  constructor
  · exact (c7_delete_get_amended (Node.leaf [5] [9]) 5 5 5 (Node.leaf [] [])).1
      (by decide) (by decide) 0
  · exact (c7_delete_get_amended (Node.leaf [4] [1]) 9 5 5 (Node.leaf [4] [1])).2
      (by decide) (by decide)

/-- C8: in every reachable freelist state, `push` appends at the end and
returns the new highest index exactly when no free slot exists; otherwise it
consumes the head free slot, overwrites it with the value, advances
`free_list_head` to the index that slot pointed at, and returns the consumed
index — the backing sequence grows only when the free chain is empty. -/
theorem c8_push_spec {T : Type u} (s : Freelist T) (hs : FReach s) (v : T) :
    ((∀ n, Handle.next n ∉ s.list) →
      s.size = s.list.length ∧
      Freelist.push s v = .ok (s.list.length,
        ⟨s.list ++ [Handle.value v], s.free_list_head, s.size + 1⟩)) ∧
    ((∃ n, Handle.next n ∈ s.list) →
      s.size < s.list.length ∧
      ∃ nxt, s.list[s.free_list_head]? = some (Handle.next nxt) ∧
        Freelist.push s v = .ok (s.free_list_head,
          ⟨s.list.set s.free_list_head (Handle.value v), nxt, s.size + 1⟩)) := by
  obtain ⟨hocc, cl, hchain, hnodup⟩ := freelist_inv hs
  constructor
  · intro hno
    have hlen : occCount s.list = s.list.length := (occCount_eq_length_iff s.list).mpr hno
    have hsz : s.size = s.list.length := by omega
    refine ⟨hsz, ?_⟩
    rw [Freelist.push, if_pos hsz, hsz]
  · rintro ⟨n, hmem⟩
    have hne : occCount s.list ≠ s.list.length := by
      intro he
      exact (occCount_eq_length_iff s.list).mp he n hmem
    have hle := occCount_le_length s.list
    have hsz : s.size < s.list.length := by omega
    have hm : s.list.length - s.size = (s.list.length - s.size - 1) + 1 := by omega
    rw [hm, chainIdx] at hchain
    split at hchain
    · rename_i nxt hget
      refine ⟨hsz, nxt, hget, ?_⟩
      rw [Freelist.push, if_neg (by omega), hget]
    · cases hchain

/-- C8 witness: the spec applied to the reachable state obtained by pushing
value 5 into a new freelist and deleting handle 0 — the tombstoned slot is
reused by the next push. -/
theorem c8_witness :
    (⟨[Handle.next 0], 0, 0⟩ : Freelist Nat).size
        < (⟨[Handle.next 0], 0, 0⟩ : Freelist Nat).list.length ∧
    ∃ nxt, (⟨[Handle.next 0], 0, 0⟩ : Freelist Nat).list[
        (⟨[Handle.next 0], 0, 0⟩ : Freelist Nat).free_list_head]?
        = some (Handle.next nxt) ∧
      Freelist.push (⟨[Handle.next 0], 0, 0⟩ : Freelist Nat) 7
        = .ok ((⟨[Handle.next 0], 0, 0⟩ : Freelist Nat).free_list_head,
          ⟨(⟨[Handle.next 0], 0, 0⟩ : Freelist Nat).list.set 0 (Handle.value 7), nxt,
           (⟨[Handle.next 0], 0, 0⟩ : Freelist Nat).size + 1⟩) := by
  have hr1 : FReach (⟨[Handle.value 5], 0, 1⟩ : Freelist Nat) :=
    FReach.push (v := 5) (i := 0) FReach.new rfl
  have hr : FReach (⟨[Handle.next 0], 0, 0⟩ : Freelist Nat) :=
    FReach.del (i := 0) (r := some ()) hr1 rfl
  exact (c8_push_spec _ hr 7).2 ⟨0, by decide⟩

/-- C9: deleting an already tombstoned handle is a no-op returning `None`;
deleting an occupied handle returns `Some(())`, tombstones the slot onto the
free chain, and decrements `len()` by one (reachability guarantees
`size ≥ 1`, so the decrement does not underflow). -/
theorem c9_delete_spec {T : Type u} (s : Freelist T) (hs : FReach s) (i : Nat) :
    (∀ n, s.list[i]? = some (Handle.next n) →
      Freelist.delete s i = .ok (none, s)) ∧
    (∀ v, s.list[i]? = some (Handle.value v) →
      1 ≤ s.size ∧
      Freelist.delete s i
        = .ok (some (), ⟨s.list.set i (Handle.next s.free_list_head), i, s.size - 1⟩) ∧
      (⟨s.list.set i (Handle.next s.free_list_head), i, s.size - 1⟩ : Freelist T).len + 1
        = s.len) := by
  obtain ⟨hocc, _, _, _⟩ := freelist_inv hs
  constructor
  · intro n hget
    rw [Freelist.delete, hget]
  · intro v hget
    have hpos := occ_pos_of_value hget
    refine ⟨by omega, ?_, ?_⟩
    · rw [Freelist.delete, hget]
    · show s.size - 1 + 1 = s.size
      omega

/-- C9 witness: the spec applied at the reachable one-element freelist
`push new 5` for the occupied handle 0, and at the tombstoned state for the
double-free case. -/
theorem c9_witness :
    (Freelist.delete (⟨[Handle.next 0], 0, 0⟩ : Freelist Nat) 0
      = .ok (none, (⟨[Handle.next 0], 0, 0⟩ : Freelist Nat))) ∧
    (1 ≤ (⟨[Handle.value 5], 0, 1⟩ : Freelist Nat).size ∧
      Freelist.delete (⟨[Handle.value 5], 0, 1⟩ : Freelist Nat) 0
        = .ok (some (), ⟨[Handle.value 5].set 0 (Handle.next 0), 0, 0⟩) ∧
      (⟨[Handle.value 5].set 0 (Handle.next 0), 0, 0⟩ : Freelist Nat).len + 1
        = (⟨[Handle.value 5], 0, 1⟩ : Freelist Nat).len) := by
  have hr1 : FReach (⟨[Handle.value 5], 0, 1⟩ : Freelist Nat) :=
    FReach.push (v := 5) (i := 0) FReach.new rfl
  have hr : FReach (⟨[Handle.next 0], 0, 0⟩ : Freelist Nat) :=
    FReach.del (i := 0) (r := some ()) hr1 rfl
  constructor
  · exact (c9_delete_spec (⟨[Handle.next 0], 0, 0⟩ : Freelist Nat) hr 0).1 0 (by decide)
  · exact (c9_delete_spec (⟨[Handle.value 5], 0, 1⟩ : Freelist Nat) hr1 0).2 5 (by decide)

/-- C10: in every state reachable from `new()` by push/get/delete (`get`
borrows the state immutably and cannot change it), `size` equals the number
of occupied slots, whenever `size < list.length` the head of the free chain
indexes an in-bounds tombstoned slot, and the `panic!` branch of `push` is
unreachable. -/
theorem c10_invariant {T : Type u} (s : Freelist T) (hs : FReach s) :
    s.size = occCount s.list ∧
    (s.size < s.list.length →
      s.free_list_head < s.list.length ∧
      ∃ nxt, s.list[s.free_list_head]? = some (Handle.next nxt)) ∧
    (∀ v, Freelist.push s v ≠ RRes.err) := by
  obtain ⟨hocc, cl, hchain, hnodup⟩ := freelist_inv hs
  have hhead : s.size < s.list.length →
      s.free_list_head < s.list.length ∧
      ∃ nxt, s.list[s.free_list_head]? = some (Handle.next nxt) := by
    intro hlt
    have hm : s.list.length - s.size = (s.list.length - s.size - 1) + 1 := by omega
    rw [hm, chainIdx] at hchain
    split at hchain
    · rename_i nxt hget
      exact ⟨(List.getElem?_eq_some.mp hget).1, nxt, hget⟩
    · cases hchain
  refine ⟨hocc, hhead, ?_⟩
  intro v hpush
  rw [Freelist.push] at hpush
  by_cases hfull : s.size = s.list.length
  · rw [if_pos hfull] at hpush
    cases hpush
  · rw [if_neg hfull] at hpush
    have hle := occCount_le_length s.list
    obtain ⟨_, nxt, hget⟩ := hhead (by omega)
    rw [hget] at hpush
    cases hpush

/-- C10 witness: the invariant applied at the reachable tombstoned state
(one slot, freed). -/
theorem c10_witness :
    (⟨[Handle.next 0], 0, 0⟩ : Freelist Nat).size
      = occCount (⟨[Handle.next 0], 0, 0⟩ : Freelist Nat).list ∧
    ((⟨[Handle.next 0], 0, 0⟩ : Freelist Nat).size
        < (⟨[Handle.next 0], 0, 0⟩ : Freelist Nat).list.length →
      (⟨[Handle.next 0], 0, 0⟩ : Freelist Nat).free_list_head
        < (⟨[Handle.next 0], 0, 0⟩ : Freelist Nat).list.length ∧
      ∃ nxt, (⟨[Handle.next 0], 0, 0⟩ : Freelist Nat).list[
          (⟨[Handle.next 0], 0, 0⟩ : Freelist Nat).free_list_head]?
        = some (Handle.next nxt)) ∧
    (∀ v, Freelist.push (⟨[Handle.next 0], 0, 0⟩ : Freelist Nat) v ≠ RRes.err) := by
  have hr1 : FReach (⟨[Handle.value 5], 0, 1⟩ : Freelist Nat) :=
    FReach.push (v := 5) (i := 0) FReach.new rfl
  have hr : FReach (⟨[Handle.next 0], 0, 0⟩ : Freelist Nat) :=
    FReach.del (i := 0) (r := some ()) hr1 rfl
  exact c10_invariant (⟨[Handle.next 0], 0, 0⟩ : Freelist Nat) hr

end TreeRs
